import Mathlib

/-!
Shallow embedding of `src/epoll-high-performance/server.cpp`, an edge-triggered
epoll echo server with a thread pool. System calls are modelled by oracle
scripts (one entry per call, carrying the value the call returned), and each
modelled function returns the trace of descriptor operations it performed.
`Option` results are `none` when the oracle script is too short to cover the
execution (the loop would have kept running).
-/

namespace EpollEcho

/-- Constant from server.cpp line 21. -/
def BUFFER_SIZE : Nat := 4096

/-- Value of EPOLLIN in sys/epoll.h. -/
def EPOLLIN : Nat := 1

/-- Value of EPOLLET (1 shifted left 31) in sys/epoll.h. -/
def EPOLLET : Nat := 2147483648

/-- Value of O_NONBLOCK in fcntl.h on Linux. -/
def O_NONBLOCK : Nat := 2048

/-- Result of one `read(fd, buffer, sizeof(buffer))` call: `data bytes` is a
return of `bytes.length > 0` bytes, `eof` is a return of 0, `wouldBlock` is a
return of -1 with errno EAGAIN or EWOULDBLOCK, `errOther` is -1 with any other
errno. -/
inductive ReadRes where
  | data (bytes : List Nat)
  | eof
  | wouldBlock
  | errOther
deriving DecidableEq

/-- One descriptor operation performed by `handleClient`: a `read` call, a
`write` call (recording the bytes passed and the value the call returned), the
`epoll_ctl(EPOLL_CTL_DEL)` call, or the `close` call. -/
inductive Event where
  | evRead (r : ReadRes)
  | evWrite (bytes : List Nat) (ret : Int)
  | evEpollDel
  | evClose
deriving DecidableEq

/-- How an invocation of `handleClient` ended: deregistered and closed after
end-of-stream, deregistered and closed after a read error, or returned on
would-block leaving the descriptor open and registered. -/
inductive Outcome where
  | closedEof
  | closedErr
  | returnedWouldBlock
deriving DecidableEq

/-- The inner write loop of `handleClient` (server.cpp lines 72-77):
`total = 0; while (total < n) { written = write(fd, buffer+total, n-total);
if (written <= 0) break; total += written; }`. `chunk` is the `n` bytes in the
buffer, `ws` the oracle of `write` return values. Returns the write events, the
final `total`, and whether the loop finished with `total >= n` (no write
error). -/
def writeLoop (chunk : List Nat) : Nat → List Int → Option (List Event × Nat × Bool)
  | total, [] =>
    if total < chunk.length then none else some ([], total, true)
  | total, w :: ws =>
    if total < chunk.length then
      if w ≤ 0 then some ([Event.evWrite (chunk.drop total) w], total, false)
      else
        match writeLoop chunk (total + w.toNat) ws with
        | none => none
        | some (evs, t, okb) => some (Event.evWrite (chunk.drop total) w :: evs, t, okb)
    else some ([], total, true)

/-- Oracle for one invocation of `handleClient`: for each iteration of the
outer loop, the result of the `read` call and (used only when it is `data`)
the results of the `write` calls of that iteration. -/
abbrev Script := List (ReadRes × List Int)

/-- The body of `handleClient` (server.cpp lines 67-89), driven by the oracle
script: loop reading; on `n > 0` run the write loop and continue the outer
loop; on `n == 0` deregister, close, break; on would-block break; on any other
read error deregister, close, break. -/
def handleClient : Script → Option (List Event × Outcome)
  | [] => none
  | (ReadRes.data bytes, ws) :: rest =>
    match writeLoop bytes 0 ws with
    | none => none
    | some (evs, _, _) =>
      match handleClient rest with
      | none => none
      | some (tr, out) => some (Event.evRead (ReadRes.data bytes) :: (evs ++ tr), out)
  | (ReadRes.eof, _) :: _ =>
    some ([Event.evRead ReadRes.eof, Event.evEpollDel, Event.evClose], Outcome.closedEof)
  | (ReadRes.wouldBlock, _) :: _ =>
    some ([Event.evRead ReadRes.wouldBlock], Outcome.returnedWouldBlock)
  | (ReadRes.errOther, _) :: _ =>
    some ([Event.evRead ReadRes.errOther, Event.evEpollDel, Event.evClose], Outcome.closedErr)

/-- The bytes a trace actually sends over the connection: for each `write` call
that returned `ret > 0`, the first `ret` bytes of the buffer it was passed. -/
def wireBytes : List Event → List Nat
  | [] => []
  | Event.evWrite bytes ret :: rest =>
    (if 0 < ret then bytes.take ret.toNat else []) ++ wireBytes rest
  | _ :: rest => wireBytes rest

/-- An `evWrite` event whose return value reports an error (`written <= 0`). -/
def failedWrite : Event → Prop
  | Event.evWrite _ ret => ret ≤ 0
  | _ => False

instance (e : Event) : Decidable (failedWrite e) := by
  cases e <;> simp [failedWrite] <;> infer_instance

/-- A read result the kernel could actually produce for
`read(fd, buffer, sizeof(buffer))`: a `data` return carries at least one and
at most `BUFFER_SIZE` bytes. -/
def validRead : ReadRes → Prop
  | ReadRes.data bytes => 0 < bytes.length ∧ bytes.length ≤ BUFFER_SIZE
  | _ => True

instance (r : ReadRes) : Decidable (validRead r) := by
  cases r <;> simp [validRead] <;> infer_instance

/-- The payload a script delivers to the handler: the concatenation of the
byte chunks of its `data` reads up to the first non-`data` read (reads after
the loop has exited are never made). -/
def scriptPayload : Script → List Nat
  | (ReadRes.data bytes, _) :: rest => bytes ++ scriptPayload rest
  | _ => []

/-- Runs a sequence of `handleClient` invocations (successive readiness cycles
for one connection) and concatenates their traces. -/
def runAll : List Script → Option (List Event)
  | [] => some []
  | s :: ss =>
    match handleClient s, runAll ss with
    | some (tr, _), some trs => some (tr ++ trs)
    | _, _ => none

/-- The total payload delivered across a sequence of invocations. -/
def totalPayload (ss : List Script) : List Nat :=
  (ss.map scriptPayload).flatten

/-- Result of one `accept` call in the drain loop (server.cpp lines 108-119):
`conn fd` is a successful accept returning `fd >= 0`, `noMore` is -1 with
errno EAGAIN or EWOULDBLOCK, `errOther` is -1 with any other errno. -/
inductive AcceptRes where
  | conn (fd : Int)
  | noMore
  | errOther
deriving DecidableEq

/-- One action of the reactor thread: `setNonBlocking(fd)`, registration of
`fd` with the given event mask via `epoll_ctl(EPOLL_CTL_ADD)`, the
`perror("accept")` log, enqueueing `handleClient` for `fd` into the thread
pool, or the `perror("epoll_wait")` log. -/
inductive RAction where
  | setNonBlock (fd : Int)
  | epollAdd (fd : Int) (mask : Nat)
  | logAccept
  | enqueueTask (fd : Int)
  | logWait
deriving DecidableEq

/-- The accept drain loop of `epollLoop` (server.cpp lines 108-127), driven by
an oracle of accept results: on success set the new descriptor non-blocking
and register it with `EPOLLIN | EPOLLET`; on EAGAIN/EWOULDBLOCK break; on any
other error log and break. -/
def acceptDrain : List AcceptRes → Option (List RAction)
  | [] => none
  | AcceptRes.conn fd :: rest =>
    match acceptDrain rest with
    | none => none
    | some as =>
      some (RAction.setNonBlock fd :: RAction.epollAdd fd (EPOLLIN ||| EPOLLET) :: as)
  | AcceptRes.noMore :: _ => some []
  | AcceptRes.errOther :: _ => some [RAction.logAccept]

/-- One entry of the `events` array filled by `epoll_wait`: the descriptor in
`data.fd`, together with the oracle of accept results used when the
descriptor turns out to be the listener (unused otherwise). The `events`
mask field is never read by the dispatch code, so it is not modelled. -/
structure EpollEvent where
  fd : Int
  ascript : List AcceptRes
deriving DecidableEq

/-- Dispatch of one ready event (server.cpp lines 103-131): the listener
descriptor is drained on the reactor thread; any other descriptor is handed
to the thread pool as a `handleClient` task. -/
def dispatchEvent (lfd : Int) (ev : EpollEvent) : Option (List RAction) :=
  if ev.fd = lfd then acceptDrain ev.ascript
  else some [RAction.enqueueTask ev.fd]

/-- Dispatch of all events of one `epoll_wait` cycle, in array order. -/
def dispatchEvents (lfd : Int) : List EpollEvent → Option (List RAction)
  | [] => some []
  | ev :: rest =>
    match dispatchEvent lfd ev, dispatchEvents lfd rest with
    | some as, some bs => some (as ++ bs)
    | _, _ => none

/-- Result of one `epoll_wait` call: `ready evs` is a return of
`evs.length >= 0` filled events, `eintr` is -1 with errno EINTR, `errOther`
is -1 with any other errno. -/
inductive WaitStep where
  | ready (evs : List EpollEvent)
  | eintr
  | errOther
deriving DecidableEq

/-- The reactor loop `epollLoop` (server.cpp lines 92-134), driven by an
oracle of `epoll_wait` results: on EINTR continue; on any other wait error
log and break out of the loop; on readiness dispatch every reported event and
continue. Returns the reactor actions and `true` when the loop terminated (we
never return `(._, false)`; the Bool records that the trace ends because the
loop exited, not because the oracle ran out). -/
def epollLoop (lfd : Int) : List WaitStep → Option (List RAction × Bool)
  | [] => none
  | WaitStep.eintr :: rest => epollLoop lfd rest
  | WaitStep.errOther :: _ => some ([RAction.logWait], true)
  | WaitStep.ready evs :: rest =>
    match dispatchEvents lfd evs, epollLoop lfd rest with
    | some as, some (bs, t) => some (as ++ bs, t)
    | _, _ => none

/-- Oracle for the startup sequence in `main` (server.cpp lines 137-167): the
return values of `socket`, `setsockopt`, `bind`, `listen`, the
`setNonBlocking` helper on the listener, `epoll_create1`, and the
`epoll_ctl(EPOLL_CTL_ADD)` registering the listener. -/
structure StartEnv where
  socketRes : Int
  setsockoptRes : Int
  bindRes : Int
  listenRes : Int
  setNonBlockingRes : Int
  epollCreateRes : Int
  epollCtlRes : Int
deriving DecidableEq

/-- The startup logic of `main` (server.cpp lines 137-177): `some c` means
`main` returns exit code `c`; `none` means startup succeeded and the process
enters the detached reactor thread plus the infinite sleep loop, never
returning. The results of `setsockopt`, of `setNonBlocking(listen_fd)`, and
of the `epoll_ctl` registration are not checked by the code. -/
def main (env : StartEnv) : Option Int :=
  if env.socketRes < 0 then some 1
  else if env.bindRes < 0 then some 1
  else if env.listenRes < 0 then some 1
  else if env.epollCreateRes < 0 then some 1
  else none

/-- State visible to the `fcntl` calls of `setNonBlocking`: the descriptor's
file status flags, and whether the `F_GETFL` and `F_SETFL` calls fail. -/
structure FcntlState where
  flags : Nat
  getflFails : Bool
  setflFails : Bool
deriving DecidableEq

/-- The helper `setNonBlocking` (server.cpp lines 60-64): read the flags with
`fcntl(F_GETFL)`; on failure return -1; otherwise set them to
`flags | O_NONBLOCK` with `fcntl(F_SETFL)` and return its result. The first
component is the state after the call. -/
def setNonBlocking (st : FcntlState) : FcntlState × Int :=
  if st.getflFails then (st, -1)
  else if st.setflFails then (st, -1)
  else ({ st with flags := st.flags ||| O_NONBLOCK }, 0)

/-! Helper lemmas about the write loop. -/

/-- Every event recorded by the write loop is a `write` call whose buffer is a
tail of the chunk starting at the running total, which is below the chunk
length at the moment of the call. -/
theorem writeLoop_buffers (chunk : List Nat) (ws : List Int) (total : Nat)
    (evs : List Event) (t : Nat) (okb : Bool)
    (h : writeLoop chunk total ws = some (evs, t, okb)) :
    ∀ e ∈ evs, ∃ k r, k < chunk.length ∧ e = Event.evWrite (chunk.drop k) r := by
  induction ws generalizing total evs t okb with
  | nil =>
    simp only [writeLoop] at h
    split at h
    · exact absurd h (by simp)
    · simp only [Option.some.injEq, Prod.mk.injEq] at h
      obtain ⟨rfl, -, -⟩ := h
      simp
  | cons w ws ih =>
    simp only [writeLoop] at h
    split at h
    · next hlt =>
      split at h
      · simp only [Option.some.injEq, Prod.mk.injEq] at h
        obtain ⟨rfl, -, -⟩ := h
        intro e he
        simp only [List.mem_singleton] at he
        exact ⟨total, w, hlt, he⟩
      · rcases hw : writeLoop chunk (total + w.toNat) ws with - | ⟨evs', t', okb'⟩ <;>
          rw [hw] at h
        · exact absurd h (by simp)
        · simp only [Option.some.injEq, Prod.mk.injEq] at h
          obtain ⟨rfl, -, -⟩ := h
          intro e he
          rcases List.mem_cons.mp he with rfl | he'
          · exact ⟨total, w, hlt, rfl⟩
          · exact ih _ _ _ _ hw e he'
    · simp only [Option.some.injEq, Prod.mk.injEq] at h
      obtain ⟨rfl, -, -⟩ := h
      simp

/-- The write loop never deregisters or closes the descriptor. -/
theorem writeLoop_no_ctl (chunk : List Nat) (ws : List Int) (total : Nat)
    (evs : List Event) (t : Nat) (okb : Bool)
    (h : writeLoop chunk total ws = some (evs, t, okb)) :
    ∀ e ∈ evs, e ≠ Event.evEpollDel ∧ e ≠ Event.evClose := by
  intro e he
  obtain ⟨k, r, -, rfl⟩ := writeLoop_buffers chunk ws total evs t okb h e he
  exact ⟨by simp, by simp⟩

/-- If no `write` call of the loop reported an error, the loop completed. -/
theorem writeLoop_ok_of_no_fail (chunk : List Nat) (ws : List Int) (total : Nat)
    (evs : List Event) (t : Nat) (okb : Bool)
    (h : writeLoop chunk total ws = some (evs, t, okb))
    (hnf : ∀ e ∈ evs, ¬ failedWrite e) : okb = true := by
  induction ws generalizing total evs t okb with
  | nil =>
    simp only [writeLoop] at h
    split at h
    · exact absurd h (by simp)
    · simp only [Option.some.injEq, Prod.mk.injEq] at h
      exact h.2.2.symm
  | cons w ws ih =>
    simp only [writeLoop] at h
    split at h
    · split at h
      · next hw0 =>
        simp only [Option.some.injEq, Prod.mk.injEq] at h
        obtain ⟨rfl, -, -⟩ := h
        exact absurd hw0 (by simpa [failedWrite] using hnf (Event.evWrite (chunk.drop total) w) (by simp))
      · rcases hw : writeLoop chunk (total + w.toNat) ws with - | ⟨evs', t', okb'⟩ <;>
          rw [hw] at h
        · exact absurd h (by simp)
        · simp only [Option.some.injEq, Prod.mk.injEq] at h
          obtain ⟨rfl, -, rfl⟩ := h
          exact ih _ _ _ _ hw fun e he => hnf e (List.mem_cons_of_mem _ he)
    · simp only [Option.some.injEq, Prod.mk.injEq] at h
      exact h.2.2.symm

/-- When the write loop completes without error it has sent, byte for byte and
in order, exactly the part of the chunk from the starting total on. -/
theorem writeLoop_wire_ok (chunk : List Nat) (ws : List Int) (total : Nat)
    (evs : List Event) (t : Nat)
    (h : writeLoop chunk total ws = some (evs, t, true)) :
    wireBytes evs = chunk.drop total := by
  induction ws generalizing total evs t with
  | nil =>
    simp only [writeLoop] at h
    split at h
    · exact absurd h (by simp)
    · next hge =>
      simp only [Option.some.injEq, Prod.mk.injEq] at h
      obtain ⟨rfl, -, -⟩ := h
      rw [List.drop_eq_nil_of_le (by omega)]
      rfl
  | cons w ws ih =>
    simp only [writeLoop] at h
    split at h
    · split at h
      · exact absurd h (by simp)
      · next hwpos =>
        rcases hw : writeLoop chunk (total + w.toNat) ws with - | ⟨evs', t', okb'⟩ <;>
          rw [hw] at h
        · exact absurd h (by simp)
        · simp only [Option.some.injEq, Prod.mk.injEq] at h
          obtain ⟨rfl, -, rfl⟩ := h
          have hih := ih _ _ _ hw
          simp only [wireBytes, if_pos (by omega : (0 : Int) < w), hih]
          rw [← List.drop_drop, List.take_append_drop]
    · next hge =>
      simp only [Option.some.injEq, Prod.mk.injEq] at h
      obtain ⟨rfl, -, -⟩ := h
      rw [List.drop_eq_nil_of_le (by omega)]
      rfl

/-- When every `write` return value is bounded by the size of the buffer it
was handed (the POSIX contract for `write`), the bytes acknowledged by the
loop are the consecutive chunk bytes from the starting total up to the final
total, and the final total stays within the chunk. -/
theorem writeLoop_take (chunk : List Nat) (ws : List Int) (total : Nat)
    (evs : List Event) (t : Nat) (okb : Bool)
    (h : writeLoop chunk total ws = some (evs, t, okb))
    (hb : ∀ b r, Event.evWrite b r ∈ evs → r.toNat ≤ b.length)
    (htot : total ≤ chunk.length) :
    wireBytes evs = (chunk.drop total).take (t - total) ∧ total ≤ t ∧ t ≤ chunk.length := by
  induction ws generalizing total evs t okb with
  | nil =>
    simp only [writeLoop] at h
    split at h
    · exact absurd h (by simp)
    · simp only [Option.some.injEq, Prod.mk.injEq] at h
      obtain ⟨rfl, rfl, -⟩ := h
      simp [wireBytes, htot]
  | cons w ws ih =>
    simp only [writeLoop] at h
    split at h
    · next hlt =>
      split at h
      · next hw0 =>
        simp only [Option.some.injEq, Prod.mk.injEq] at h
        obtain ⟨rfl, rfl, -⟩ := h
        have : ¬ (0 : Int) < w := by omega
        simp [wireBytes, this, htot]
      · next hwpos =>
        rcases hw : writeLoop chunk (total + w.toNat) ws with - | ⟨evs', t', okb'⟩ <;>
          rw [hw] at h
        · exact absurd h (by simp)
        · simp only [Option.some.injEq, Prod.mk.injEq] at h
          obtain ⟨rfl, rfl, rfl⟩ := h
          have hwb : w.toNat ≤ (chunk.drop total).length :=
            hb (chunk.drop total) w (by simp)
          rw [List.length_drop] at hwb
          have htot' : total + w.toNat ≤ chunk.length := by omega
          obtain ⟨hih, hle, hlen⟩ := ih _ _ _ _ hw
            (fun b r hm => hb b r (List.mem_cons_of_mem _ hm)) htot'
          refine ⟨?_, by omega, hlen⟩
          simp only [wireBytes, if_pos (by omega : (0 : Int) < w), hih]
          have hsplit : t' - total = w.toNat + (t' - (total + w.toNat)) := by omega
          rw [hsplit, List.take_add, ← List.drop_drop]
    · simp only [Option.some.injEq, Prod.mk.injEq] at h
      obtain ⟨rfl, rfl, -⟩ := h
      simp [wireBytes, htot]

/-! Helper lemmas about traces and the handler body. -/

/-- Function `wireBytes` distributes over trace concatenation. -/
theorem wireBytes_append (a b : List Event) :
    wireBytes (a ++ b) = wireBytes a ++ wireBytes b := by
  induction a with
  | nil => rfl
  | cons e a ih => cases e <;> simp [wireBytes, ih]

/-- When no `write` call of an invocation reported an error, the invocation
sent, byte for byte and in order, exactly the payload its reads delivered. -/
theorem handleClient_wire (s : Script) (tr : List Event) (out : Outcome)
    (h : handleClient s = some (tr, out))
    (hnf : ∀ e ∈ tr, ¬ failedWrite e) :
    wireBytes tr = scriptPayload s := by
  induction s generalizing tr out with
  | nil => exact absurd h (by simp [handleClient])
  | cons p rest ih =>
    obtain ⟨r, ws⟩ := p
    cases r with
    | data bytes =>
      simp only [handleClient] at h
      rcases hw : writeLoop bytes 0 ws with - | ⟨evs, t, okb⟩ <;> rw [hw] at h
      · exact absurd h (by simp)
      · rcases hr : handleClient rest with - | ⟨tr', out'⟩ <;> rw [hr] at h
        · exact absurd h (by simp)
        · simp only [Option.some.injEq, Prod.mk.injEq] at h
          obtain ⟨rfl, rfl⟩ := h
          have hnf' : ∀ e ∈ evs, ¬ failedWrite e := fun e he =>
            hnf e (List.mem_cons_of_mem _ (List.mem_append_left _ he))
          have hok := writeLoop_ok_of_no_fail bytes ws 0 evs t okb hw hnf'
          subst hok
          have hwire := writeLoop_wire_ok bytes ws 0 evs t hw
          rw [List.drop_zero] at hwire
          have htr' := ih tr' out' hr fun e he =>
            hnf e (List.mem_cons_of_mem _ (List.mem_append_right _ he))
          simp [wireBytes, wireBytes_append, hwire, htr', scriptPayload]
    | eof =>
      simp only [handleClient, Option.some.injEq, Prod.mk.injEq] at h
      obtain ⟨rfl, -⟩ := h
      rfl
    | wouldBlock =>
      simp only [handleClient, Option.some.injEq, Prod.mk.injEq] at h
      obtain ⟨rfl, -⟩ := h
      rfl
    | errOther =>
      simp only [handleClient, Option.some.injEq, Prod.mk.injEq] at h
      obtain ⟨rfl, -⟩ := h
      rfl

/-- When no `write` call across a sequence of invocations reported an error,
the concatenated traces send exactly the total delivered payload. -/
theorem runAll_wire (ss : List Script) (tr : List Event)
    (h : runAll ss = some tr)
    (hnf : ∀ e ∈ tr, ¬ failedWrite e) :
    wireBytes tr = totalPayload ss := by
  induction ss generalizing tr with
  | nil =>
    simp only [runAll, Option.some.injEq] at h
    subst h
    rfl
  | cons s ss ih =>
    simp only [runAll] at h
    rcases hc : handleClient s with - | ⟨tr1, out⟩ <;> rw [hc] at h
    · exact absurd h (by simp)
    · rcases hr : runAll ss with - | trs <;> rw [hr] at h
      · exact absurd h (by simp)
      · simp only [Option.some.injEq] at h
        subst h
        have h1 := handleClient_wire s tr1 out hc fun e he =>
          hnf e (List.mem_append_left _ he)
        have h2 := ih trs hr fun e he => hnf e (List.mem_append_right _ he)
        simp [wireBytes_append, h1, h2, totalPayload, List.flatten]

/-! Helper lemmas about the reactor. -/

/-- The accept drain loop never enqueues a task into the thread pool. -/
theorem acceptDrain_no_enqueue (a : List AcceptRes) (as : List RAction)
    (h : acceptDrain a = some as) :
    ∀ fd, RAction.enqueueTask fd ∉ as := by
  induction a generalizing as with
  | nil => exact absurd h (by simp [acceptDrain])
  | cons x a ih =>
    cases x with
    | conn fd0 =>
      simp only [acceptDrain] at h
      rcases hr : acceptDrain a with - | as' <;> rw [hr] at h
      · exact absurd h (by simp)
      · simp only [Option.some.injEq] at h
        subst h
        intro fd hm
        rcases List.mem_cons.mp hm with h1 | hm'
        · exact absurd h1 (by simp)
        · rcases List.mem_cons.mp hm' with h2 | hmm2
          · exact absurd h2 (by simp)
          · exact ih as' hr fd hmm2
    | noMore =>
      simp only [acceptDrain, Option.some.injEq] at h
      subst h
      simp
    | errOther =>
      simp only [acceptDrain, Option.some.injEq] at h
      subst h
      simp

/-- Every task enqueued while dispatching one readiness cycle is for a
descriptor that is not the listener. -/
theorem dispatchEvents_enqueue (lfd : Int) (evs : List EpollEvent)
    (as : List RAction) (h : dispatchEvents lfd evs = some as)
    (fd : Int) (hm : RAction.enqueueTask fd ∈ as) : fd ≠ lfd := by
  induction evs generalizing as with
  | nil =>
    simp only [dispatchEvents, Option.some.injEq] at h
    subst h
    exact absurd hm (by simp)
  | cons ev evs ih =>
    simp only [dispatchEvents] at h
    rcases h1 : dispatchEvent lfd ev with - | as1 <;> rw [h1] at h
    · exact absurd h (by simp)
    · rcases h2 : dispatchEvents lfd evs with - | as2 <;> rw [h2] at h
      · exact absurd h (by simp)
      · simp only [Option.some.injEq] at h
        subst h
        rcases List.mem_append.mp hm with hm1 | hm2
        · simp only [dispatchEvent] at h1
          split at h1
          · exact absurd hm1 (acceptDrain_no_enqueue ev.ascript as1 h1 fd)
          · next hne =>
            simp only [Option.some.injEq] at h1
            subst h1
            simp only [List.mem_singleton, RAction.enqueueTask.injEq] at hm1
            subst hm1
            exact hne
        · exact ih as2 h2 hm2

/-! Claim theorems. -/

/-- Claim C1: for every byte payload, including the empty payload and payloads
larger than `BUFFER_SIZE`, if every read and write over the whole sequence of
`handleClient` invocations succeeds, the bytes written back equal the payload
exactly, byte for byte and in order, with nothing added. -/
theorem echo_exact (ss : List Script) (tr : List Event)
    (hrun : runAll ss = some tr)
    (_hreads : ∀ s ∈ ss, ∀ step ∈ s, step.1 ≠ ReadRes.errOther)
    (_hvalid : ∀ s ∈ ss, ∀ step ∈ s, validRead step.1)
    (hwrites : ∀ e ∈ tr, ¬ failedWrite e) :
    wireBytes tr = totalPayload ss :=
  runAll_wire ss tr hrun hwrites

/-- Witness for C1: two readiness cycles deliver the payload 1,2,3 in one
chunk echoed over two short writes, then end-of-stream; the wire carries
exactly 1,2,3. -/
theorem echo_exact_witness :
    runAll [[(ReadRes.data [1, 2, 3], [(1 : Int), 2]), (ReadRes.wouldBlock, [])],
        [(ReadRes.eof, [])]] =
      some [Event.evRead (ReadRes.data [1, 2, 3]), Event.evWrite [1, 2, 3] 1,
        Event.evWrite [2, 3] 2, Event.evRead ReadRes.wouldBlock,
        Event.evRead ReadRes.eof, Event.evEpollDel, Event.evClose] ∧
    wireBytes [Event.evRead (ReadRes.data [1, 2, 3]), Event.evWrite [1, 2, 3] 1,
        Event.evWrite [2, 3] 2, Event.evRead ReadRes.wouldBlock,
        Event.evRead ReadRes.eof, Event.evEpollDel, Event.evClose] =
      totalPayload [[(ReadRes.data [1, 2, 3], [(1 : Int), 2]), (ReadRes.wouldBlock, [])],
        [(ReadRes.eof, [])]] :=
  ⟨by decide, echo_exact _ _ (by decide) (by decide) (by decide) (by decide)⟩

/-- Claim C2 (counterexample): a chunk of one byte whose write fails with -1
does not abort the handler; the trace shows a further `read` call on the
descriptor after the failed write, and the invocation ends through the normal
end-of-stream path rather than an error outcome of the write. -/
theorem write_error_continues_cex :
    handleClient [(ReadRes.data [104], [(-1 : Int)]), (ReadRes.eof, [])] =
      some ([Event.evRead (ReadRes.data [104]), Event.evWrite [104] (-1),
          Event.evRead ReadRes.eof, Event.evEpollDel, Event.evClose],
        Outcome.closedEof) := by decide

/-- Claim C2 (amended): for every read returning `n > 0` bytes the handler
loops writing until all `n` bytes are sent or a write error occurs; a write
error only abandons the rest of that chunk — the handler neither deregisters
nor closes the descriptor and continues with the next read of the outer
loop. -/
theorem write_loop_until_sent_or_error (bytes : List Nat) (ws : List Int)
    (rest : Script) (tr : List Event) (out : Outcome)
    (h : handleClient ((ReadRes.data bytes, ws) :: rest) = some (tr, out)) :
    ∃ evs t okb rtr,
      writeLoop bytes 0 ws = some (evs, t, okb) ∧
      handleClient rest = some (rtr, out) ∧
      tr = Event.evRead (ReadRes.data bytes) :: (evs ++ rtr) ∧
      (∀ e ∈ evs, e ≠ Event.evEpollDel ∧ e ≠ Event.evClose) ∧
      (okb = true → wireBytes evs = bytes) := by
  simp only [handleClient] at h
  rcases hw : writeLoop bytes 0 ws with - | ⟨evs, t, okb⟩ <;> rw [hw] at h
  · exact absurd h (by simp)
  · rcases hr : handleClient rest with - | ⟨tr', out'⟩ <;> rw [hr] at h
    · exact absurd h (by simp)
    · simp only [Option.some.injEq, Prod.mk.injEq] at h
      obtain ⟨rfl, rfl⟩ := h
      refine ⟨evs, t, okb, tr', rfl, rfl, rfl,
        writeLoop_no_ctl bytes ws 0 evs t okb hw, ?_⟩
      intro hok
      subst hok
      have := writeLoop_wire_ok bytes ws 0 evs t hw
      rwa [List.drop_zero] at this

/-- Witness for the amended C2 at the counterexample input: the failed write
abandons the chunk, no deregistration or close happens in the write phase, and
the handler goes on to the next read. -/
theorem write_loop_until_sent_or_error_witness :
    handleClient [(ReadRes.data [104], [(-1 : Int)]), (ReadRes.eof, [])] =
      some ([Event.evRead (ReadRes.data [104]), Event.evWrite [104] (-1),
          Event.evRead ReadRes.eof, Event.evEpollDel, Event.evClose],
        Outcome.closedEof) ∧
    (∃ evs t okb rtr,
      writeLoop [104] 0 [(-1 : Int)] = some (evs, t, okb) ∧
      handleClient [(ReadRes.eof, ([] : List Int))] = some (rtr, Outcome.closedEof) ∧
      [Event.evRead (ReadRes.data [104]), Event.evWrite [104] (-1),
          Event.evRead ReadRes.eof, Event.evEpollDel, Event.evClose] =
        Event.evRead (ReadRes.data [104]) :: (evs ++ rtr) ∧
      (∀ e ∈ evs, e ≠ Event.evEpollDel ∧ e ≠ Event.evClose) ∧
      (okb = true → wireBytes evs = [104])) :=
  ⟨by decide,
    write_loop_until_sent_or_error [104] [(-1 : Int)] [(ReadRes.eof, [])] _ _ (by decide)⟩

/-- Claim C3 (counterexample): with socket, bind, listen and epoll_create1 all
succeeding but the `epoll_ctl` call registering the listener failing, `main`
does not return a non-zero code: the registration result is never checked and
the process enters the serve loop, never returning at all. -/
theorem registration_failure_ignored_cex :
    main ⟨3, 0, 0, 0, 0, 4, -1⟩ = none ∧
    (⟨3, 0, 0, 0, 0, 4, -1⟩ : StartEnv).epollCtlRes < 0 := by decide

/-- Claim C3 (amended): `main` returns the non-zero code 1 exactly when socket
creation, bind, listen, or creation of the epoll instance fails; the result of
the `epoll_ctl` call registering the listening descriptor is not checked, so
whenever those four succeed `main` never returns, whatever the registration
result. -/
theorem startup_exit_codes (env : StartEnv) :
    main env =
      if env.socketRes < 0 ∨ env.bindRes < 0 ∨ env.listenRes < 0 ∨
          env.epollCreateRes < 0 then some 1 else none := by
  simp only [main]
  split_ifs <;> tauto

/-- Claim C4: once an invocation of the handler observes end-of-stream or a
read error other than would-block, its trace ends with exactly one
deregistration followed by exactly one close; neither occurs earlier in the
invocation, and no operation on the descriptor follows them. -/
theorem close_terminal_once (s : Script) (tr : List Event) (out : Outcome)
    (h : handleClient s = some (tr, out))
    (hout : out = Outcome.closedEof ∨ out = Outcome.closedErr) :
    ∃ pre, tr = pre ++ [Event.evEpollDel, Event.evClose] ∧
      ∀ e ∈ pre, e ≠ Event.evEpollDel ∧ e ≠ Event.evClose := by
  induction s generalizing tr out with
  | nil => exact absurd h (by simp [handleClient])
  | cons p rest ih =>
    obtain ⟨r, ws⟩ := p
    cases r with
    | data bytes =>
      simp only [handleClient] at h
      rcases hw : writeLoop bytes 0 ws with - | ⟨evs, t, okb⟩ <;> rw [hw] at h
      · exact absurd h (by simp)
      · rcases hr : handleClient rest with - | ⟨tr', out'⟩ <;> rw [hr] at h
        · exact absurd h (by simp)
        · simp only [Option.some.injEq, Prod.mk.injEq] at h
          obtain ⟨rfl, rfl⟩ := h
          obtain ⟨pre, hpre, hclean⟩ := ih tr' out' hr hout
          refine ⟨Event.evRead (ReadRes.data bytes) :: (evs ++ pre), by simp [hpre], ?_⟩
          intro e he
          rcases List.mem_cons.mp he with rfl | he'
          · exact ⟨by simp, by simp⟩
          · rcases List.mem_append.mp he' with h1 | h2
            · exact writeLoop_no_ctl bytes ws 0 evs t okb hw e h1
            · exact hclean e h2
    | eof =>
      simp only [handleClient, Option.some.injEq, Prod.mk.injEq] at h
      obtain ⟨rfl, -⟩ := h
      exact ⟨[Event.evRead ReadRes.eof], rfl, by simp⟩
    | wouldBlock =>
      simp only [handleClient, Option.some.injEq, Prod.mk.injEq] at h
      obtain ⟨-, rfl⟩ := h
      simp at hout
    | errOther =>
      simp only [handleClient, Option.some.injEq, Prod.mk.injEq] at h
      obtain ⟨rfl, -⟩ := h
      exact ⟨[Event.evRead ReadRes.errOther], rfl, by simp⟩

/-- Witness for C4: an invocation that reads end-of-stream at once produces a
trace ending with the single deregistration and the single close. -/
theorem close_terminal_once_witness :
    handleClient [(ReadRes.eof, ([] : List Int))] =
      some ([Event.evRead ReadRes.eof, Event.evEpollDel, Event.evClose],
        Outcome.closedEof) ∧
    (∃ pre,
      [Event.evRead ReadRes.eof, Event.evEpollDel, Event.evClose] =
        pre ++ [Event.evEpollDel, Event.evClose] ∧
      ∀ e ∈ pre, e ≠ Event.evEpollDel ∧ e ≠ Event.evClose) :=
  ⟨by decide,
    close_terminal_once [(ReadRes.eof, ([] : List Int))]
      [Event.evRead ReadRes.eof, Event.evEpollDel, Event.evClose]
      Outcome.closedEof (by decide) (Or.inl rfl)⟩

/-- Claim C5: when a read fails with would-block, the handler returns without
performing any deregistration or close anywhere in the invocation, so the
descriptor stays open and registered for the next readiness cycle. -/
theorem wouldBlock_keeps_open (s : Script) (tr : List Event)
    (h : handleClient s = some (tr, Outcome.returnedWouldBlock)) :
    ∀ e ∈ tr, e ≠ Event.evEpollDel ∧ e ≠ Event.evClose := by
  induction s generalizing tr with
  | nil => exact absurd h (by simp [handleClient])
  | cons p rest ih =>
    obtain ⟨r, ws⟩ := p
    cases r with
    | data bytes =>
      simp only [handleClient] at h
      rcases hw : writeLoop bytes 0 ws with - | ⟨evs, t, okb⟩ <;> rw [hw] at h
      · exact absurd h (by simp)
      · rcases hr : handleClient rest with - | ⟨tr', out'⟩ <;> rw [hr] at h
        · exact absurd h (by simp)
        · simp only [Option.some.injEq, Prod.mk.injEq] at h
          obtain ⟨rfl, rfl⟩ := h
          intro e he
          rcases List.mem_cons.mp he with rfl | he'
          · exact ⟨by simp, by simp⟩
          · rcases List.mem_append.mp he' with h1 | h2
            · exact writeLoop_no_ctl bytes ws 0 evs t okb hw e h1
            · exact ih tr' hr e h2
    | eof =>
      simp only [handleClient, Option.some.injEq, Prod.mk.injEq] at h
      simp at h
    | wouldBlock =>
      simp only [handleClient, Option.some.injEq, Prod.mk.injEq] at h
      obtain ⟨rfl, -⟩ := h
      simp
    | errOther =>
      simp only [handleClient, Option.some.injEq, Prod.mk.injEq] at h
      simp at h

/-- Witness for C5: an invocation whose first read would block performs only
that read and leaves the descriptor alone. -/
theorem wouldBlock_keeps_open_witness :
    handleClient [(ReadRes.wouldBlock, ([] : List Int))] =
      some ([Event.evRead ReadRes.wouldBlock], Outcome.returnedWouldBlock) ∧
    ∀ e ∈ [Event.evRead ReadRes.wouldBlock],
      e ≠ Event.evEpollDel ∧ e ≠ Event.evClose :=
  ⟨by decide,
    wouldBlock_keeps_open [(ReadRes.wouldBlock, ([] : List Int))]
      [Event.evRead ReadRes.wouldBlock] (by decide)⟩

/-- Claim C6: on listener readiness the reactor accepts until the call reports
no more pending connections, which ends the drain normally; each accepted
descriptor is set non-blocking and registered with `EPOLLIN | EPOLLET`; an
accept failure other than no-pending is logged and ends the drain for this
cycle only — the reactor loop goes on with the remaining wait cycles instead
of terminating the process. -/
theorem accept_drain_spec (lfd : Int) (fds : List Int) (term : AcceptRes)
    (hterm : term = AcceptRes.noMore ∨ term = AcceptRes.errOther)
    (rest : List WaitStep) :
    acceptDrain (fds.map AcceptRes.conn ++ [term]) =
      some ((fds.map fun fd =>
          [RAction.setNonBlock fd, RAction.epollAdd fd (EPOLLIN ||| EPOLLET)]).flatten ++
        (if term = AcceptRes.errOther then [RAction.logAccept] else [])) ∧
    epollLoop lfd
        (WaitStep.ready [⟨lfd, fds.map AcceptRes.conn ++ [term]⟩] :: rest) =
      (epollLoop lfd rest).map fun p =>
        (((fds.map fun fd =>
            [RAction.setNonBlock fd, RAction.epollAdd fd (EPOLLIN ||| EPOLLET)]).flatten ++
          (if term = AcceptRes.errOther then [RAction.logAccept] else [])) ++ p.1, p.2) := by
  have hdrain : acceptDrain (fds.map AcceptRes.conn ++ [term]) =
      some ((fds.map fun fd =>
          [RAction.setNonBlock fd, RAction.epollAdd fd (EPOLLIN ||| EPOLLET)]).flatten ++
        (if term = AcceptRes.errOther then [RAction.logAccept] else [])) := by
    induction fds with
    | nil =>
      rcases hterm with rfl | rfl
      · simp [acceptDrain]
      · simp [acceptDrain]
    | cons fd fds ih =>
      simp only [List.map_cons, List.cons_append, acceptDrain, List.flatten_cons,
        List.append_eq]
      rw [ih]
      simp
  refine ⟨hdrain, ?_⟩
  simp only [epollLoop, dispatchEvents, dispatchEvent, if_pos rfl, hdrain]
  rcases hrest : epollLoop lfd rest with - | ⟨bs, t⟩
  · rfl
  · simp

/-- Witness for C6: a drain that accepts descriptor 7 and then hits an accept
error registers 7 for edge-triggered reads and logs the error. -/
theorem accept_drain_spec_witness :
    acceptDrain [AcceptRes.conn 7, AcceptRes.errOther] =
      some (([7].map fun fd =>
          [RAction.setNonBlock fd, RAction.epollAdd fd (EPOLLIN ||| EPOLLET)]).flatten ++
        (if AcceptRes.errOther = AcceptRes.errOther then [RAction.logAccept] else [])) :=
  (accept_drain_spec 3 [7] AcceptRes.errOther (Or.inr rfl) []).1

/-- Claim C7: an interrupted wait call is retried transparently (the loop on
the remaining cycles is unchanged, nothing logged), while any other wait
failure logs the error and terminates the reactor loop, performing nothing
further. -/
theorem wait_error_handling (lfd : Int) (rest : List WaitStep) :
    epollLoop lfd (WaitStep.eintr :: rest) = epollLoop lfd rest ∧
    epollLoop lfd (WaitStep.errOther :: rest) = some ([RAction.logWait], true) :=
  ⟨rfl, rfl⟩

/-- Claim C8: for a chunk of `n` bytes, as long as each `write` return value
is at most the size of the buffer handed to that call (the POSIX contract),
the acknowledged bytes form exactly the first `t` bytes of the chunk for the
final total `t`, that total never exceeds `n`, and every buffer passed to
`write` is a tail of the chunk — nothing outside the chunk, nothing
duplicated, nothing out of order. -/
theorem write_chunk_bytes_bound (chunk : List Nat) (ws : List Int)
    (evs : List Event) (t : Nat) (okb : Bool)
    (h : writeLoop chunk 0 ws = some (evs, t, okb))
    (hb : ∀ b r, Event.evWrite b r ∈ evs → r.toNat ≤ b.length) :
    wireBytes evs = chunk.take t ∧ t ≤ chunk.length ∧
      ∀ b r, Event.evWrite b r ∈ evs → ∃ k, k < chunk.length ∧ b = chunk.drop k := by
  obtain ⟨h1, -, h3⟩ := writeLoop_take chunk ws 0 evs t okb h hb (Nat.zero_le _)
  refine ⟨by simpa using h1, h3, ?_⟩
  intro b r hm
  obtain ⟨k, r', hk, heq⟩ := writeLoop_buffers chunk ws 0 evs t okb h _ hm
  exact ⟨k, hk, by injection heq⟩

/-- Witness for C8: a three-byte chunk echoed over a one-byte write and a
two-byte write acknowledges exactly the chunk, with total 3. -/
theorem write_chunk_bytes_bound_witness :
    writeLoop [1, 2, 3] 0 [(1 : Int), 2] =
      some ([Event.evWrite [1, 2, 3] 1, Event.evWrite [2, 3] 2], 3, true) ∧
    (wireBytes [Event.evWrite [1, 2, 3] 1, Event.evWrite [2, 3] 2] =
        List.take 3 [1, 2, 3] ∧ 3 ≤ List.length [1, 2, 3] ∧
      ∀ b r, Event.evWrite b r ∈ [Event.evWrite [1, 2, 3] 1, Event.evWrite [2, 3] 2] →
        ∃ k, k < List.length [1, 2, 3] ∧ b = List.drop k [1, 2, 3]) :=
  ⟨by decide,
    write_chunk_bytes_bound [1, 2, 3] [(1 : Int), 2]
      [Event.evWrite [1, 2, 3] 1, Event.evWrite [2, 3] 2] 3 true
      (by decide)
      (by
        intro b r hm
        rcases List.mem_cons.mp hm with h1 | hm2
        · injection h1 with hb1 hr1
          subst hb1
          subst hr1
          decide
        · rcases List.mem_cons.mp hm2 with h2 | h3
          · injection h2 with hb2 hr2
            subst hb2
            subst hr2
            decide
          · exact absurd h3 (by simp))⟩

/-- Claim C9: every task the reactor hands to the worker pool is for a
descriptor different from the listening descriptor; listener readiness is
handled entirely on the reactor thread by the accept drain. -/
theorem enqueue_not_listener (lfd : Int) (steps : List WaitStep)
    (as : List RAction) (tb : Bool)
    (h : epollLoop lfd steps = some (as, tb))
    (fd : Int) (hm : RAction.enqueueTask fd ∈ as) : fd ≠ lfd := by
  induction steps generalizing as tb with
  | nil => exact absurd h (by simp [epollLoop])
  | cons step rest ih =>
    cases step with
    | ready evs =>
      simp only [epollLoop] at h
      rcases h1 : dispatchEvents lfd evs with - | as1 <;> rw [h1] at h
      · exact absurd h (by simp)
      · rcases h2 : epollLoop lfd rest with - | ⟨as2, t2⟩ <;> rw [h2] at h
        · exact absurd h (by simp)
        · simp only [Option.some.injEq, Prod.mk.injEq] at h
          obtain ⟨rfl, -⟩ := h
          rcases List.mem_append.mp hm with hm1 | hm2
          · exact dispatchEvents_enqueue lfd evs as1 h1 fd hm1
          · exact ih as2 t2 h2 hm2
    | eintr => exact ih as tb h hm
    | errOther =>
      simp only [epollLoop, Option.some.injEq, Prod.mk.injEq] at h
      obtain ⟨rfl, -⟩ := h
      exact absurd hm (by simp)

/-- Witness for C9: a cycle reporting descriptor 5 while listening on 3
enqueues the task for 5, and 5 is not the listener. -/
theorem enqueue_not_listener_witness :
    epollLoop 3 [WaitStep.ready [⟨5, []⟩], WaitStep.errOther] =
      some ([RAction.enqueueTask 5, RAction.logWait], true) ∧ (5 : Int) ≠ 3 :=
  ⟨by decide,
    enqueue_not_listener 3 [WaitStep.ready [⟨5, []⟩], WaitStep.errOther]
      [RAction.enqueueTask 5, RAction.logWait] true (by decide) 5 (by decide)⟩

/-- Claim C10: `setNonBlocking` only adds `O_NONBLOCK`: when both `fcntl`
calls succeed the resulting flags have exactly the old bits plus the
`O_NONBLOCK` bit, bit for bit; when reading the flags fails it returns -1
with the state untouched. -/
theorem setNonBlocking_spec (st : FcntlState) :
    (st.getflFails = true → setNonBlocking st = (st, -1)) ∧
    (st.getflFails = false → st.setflFails = false →
      (setNonBlocking st).2 = 0 ∧
      ∀ i, ((setNonBlocking st).1.flags).testBit i =
        (st.flags.testBit i || O_NONBLOCK.testBit i)) := by
  constructor
  · intro hg
    simp [setNonBlocking, hg]
  · intro hg hs
    simp [setNonBlocking, hg, hs, Nat.testBit_or]

/-- Witness for C10: on flags 5 with both calls succeeding the result is 0 and
bit 11 (the `O_NONBLOCK` bit) is set; with a failing `F_GETFL` the state is
returned untouched with -1. -/
theorem setNonBlocking_spec_witness :
    setNonBlocking ⟨5, true, false⟩ = (⟨5, true, false⟩, -1) ∧
    Nat.testBit (setNonBlocking ⟨5, false, false⟩).1.flags 11 =
      (Nat.testBit 5 11 || Nat.testBit O_NONBLOCK 11) :=
  ⟨(setNonBlocking_spec ⟨5, true, false⟩).1 rfl,
    ((setNonBlocking_spec ⟨5, false, false⟩).2 rfl rfl).2 11⟩

end EpollEcho
